import Mathlib

/-!
Verification development for the job-switchboard time tracker.

The system under study consists of two Python modules:

* `vis.py` — reads the JSON event log, reconstructs work sessions from
  adjacent switch events, splits sessions that cross midnight, groups them
  by calendar day and lays them out as rectangles on an hour-of-day axis.
* `main.py` — the dashboard: deterministic hash-based project colors,
  the switch operation that appends events to the persisted log.

Python naive `datetime` values (year 1–9999, second precision) are embedded
as natural numbers counting seconds from midnight of 0001-01-01 in the
proleptic Gregorian calendar, so that `toOrdinal` below agrees with Python
`date.toordinal()` up to a fixed offset.  All `datetime` operations the code
uses (`.date()` comparison, `timedelta` addition, `datetime.combine` with
midnight) commute with this encoding.  Fractional seconds (microseconds) are
not modelled; timestamps are second-granular, as in every claim considered.
-/

namespace Switchboard

/-! ### Calendar arithmetic -/

def secPerDay : Nat := 86400

/-- Calendar date of a time point, as a proleptic-Gregorian ordinal day. -/
def dayOf (t : Nat) : Nat := t / secPerDay

/-- `day_end` from vis.py: midnight at the start of the day following `t`,
i.e. `datetime.combine(dt.date() + timedelta(days=1), datetime.min.time())`. -/
def day_end (t : Nat) : Nat := (dayOf t + 1) * secPerDay

def isLeapYear (y : Nat) : Bool :=
  y % 4 == 0 && (y % 100 != 0 || y % 400 == 0)

def daysInMonth (y m : Nat) : Nat :=
  if m = 2 then (if isLeapYear y then 29 else 28)
  else if m = 4 ∨ m = 6 ∨ m = 9 ∨ m = 11 then 30
  else 31

def daysBeforeYear (y : Nat) : Nat :=
  (y - 1) * 365 + (y - 1) / 4 - (y - 1) / 100 + (y - 1) / 400

def daysBeforeMonth (y m : Nat) : Nat :=
  ((List.range (m - 1)).map (fun i => daysInMonth y (i + 1))).sum

/-- Proleptic Gregorian ordinal of a calendar date (Python `date.toordinal()`). -/
def toOrdinal (y m d : Nat) : Nat :=
  daysBeforeYear y + daysBeforeMonth y m + d

def secOfYmdhms (y m d h mi s : Nat) : Nat :=
  toOrdinal y m d * secPerDay + h * 3600 + mi * 60 + s

/-! ### ISO-8601 timestamp parsing (`datetime.fromisoformat`) -/

def digitVal (c : Char) : Option Nat :=
  if c.isDigit then some (c.toNat - 48) else none

def d2 (a b : Char) : Option Nat := do
  let x ← digitVal a
  let y ← digitVal b
  pure (x * 10 + y)

def d4 (a b c d : Char) : Option Nat := do
  let x ← d2 a b
  let y ← d2 c d
  pure (x * 100 + y)

def validYmd (y m d : Nat) : Bool :=
  decide (1 ≤ y) && decide (1 ≤ m) && decide (m ≤ 12) &&
    decide (1 ≤ d) && decide (d ≤ daysInMonth y m)

def parseDate : List Char → Option (Nat × Nat × Nat)
  | [a, b, c, d, '-', e, f, '-', g, h] => do
      let y ← d4 a b c d
      let m ← d2 e f
      let dd ← d2 g h
      if validYmd y m dd then some (y, m, dd) else none
  | _ => none

def parseTime : List Char → Option (Nat × Nat × Nat)
  | [a, b, ':', c, d] => do
      let h ← d2 a b
      let mi ← d2 c d
      if h ≤ 23 ∧ mi ≤ 59 then some (h, mi, 0) else none
  | [a, b, ':', c, d, ':', e, f] => do
      let h ← d2 a b
      let mi ← d2 c d
      let s ← d2 e f
      if h ≤ 23 ∧ mi ≤ 59 ∧ s ≤ 59 then some (h, mi, s) else none
  | _ => none

/-- Split a character list at every occurrence of `'T'`
(Python `ts.split("T")`; the separator written by `isoformat()` is `'T'`). -/
def splitOnT : List Char → List (List Char)
  | [] => [[]]
  | c :: rest =>
      let r := splitOnT rest
      if c = 'T' then [] :: r
      else
        match r with
        | [] => [[c]]
        | g :: gs => (c :: g) :: gs

/-- Model of Python `datetime.fromisoformat`, restricted to the shapes this
system writes and repairs: `YYYY-MM-DD`, optionally followed by `T` and a
time `HH:MM` or `HH:MM:SS`, all fields zero-padded and range-checked
(year 0001–9999, month 1–12, day within the month, hour ≤ 23, minute and
second ≤ 59).  Fractional seconds and non-`T` separators are outside the
model. -/
def pyFromIso (ts : String) : Option Nat :=
  match splitOnT ts.data with
  | [d] => do
      let (y, m, dd) ← parseDate d
      pure (secOfYmdhms y m dd 0 0 0)
  | [d, t] => do
      let (y, m, dd) ← parseDate d
      let (h, mi, s) ← parseTime t
      pure (secOfYmdhms y m dd h mi s)
  | _ => none

/-- The best-effort fix-up inside `parse_event` (vis.py): split on `"T"` into
exactly two parts (a `ValueError` propagates otherwise), and when the time
part has a `':'` at index 1 (single-digit hour) prepend a `'0'`; indexing
position 1 of a length-1 time part raises (`IndexError`), modelled as
`none`. -/
def fix_attempt (ts : String) : Option String :=
  match splitOnT ts.data with
  | [d, t] =>
      if t.length = 0 then some (String.mk (d ++ 'T' :: t))
      else
        if ht : 1 < t.length then
          if t.get ⟨1, ht⟩ = ':' then some (String.mk (d ++ 'T' :: '0' :: t))
          else some (String.mk (d ++ 'T' :: t))
        else none
  | _ => none

/-- `parse_event` from vis.py: try `fromisoformat` directly, then after the
zero-padding fix-up; any remaining failure propagates as a fatal error. -/
def parse_event (ts : String) : Except String Nat :=
  match pyFromIso ts with
  | some t => .ok t
  | none =>
      match fix_attempt ts with
      | some ts2 =>
          match pyFromIso ts2 with
          | some t => .ok t
          | none => .error ("Error parsing timestamp: " ++ ts)
      | none => .error ("Error parsing timestamp: " ++ ts)

/-! ### Events and sorting -/

/-- A raw log entry as read from `history.json`: the timestamp string plus
optional `project` and `color` fields (`none` = key absent, so `dict.get`
falls back to its default). -/
structure RawEvent where
  timestamp : String
  project : Option String
  color : Option String
  deriving DecidableEq, Repr

/-- Lexicographic comparison of character lists by code point — Python
string `<=`. -/
def lexLe : List Char → List Char → Bool
  | [], _ => true
  | _ :: _, [] => false
  | a :: as, b :: bs => a < b || (a == b && lexLe as bs)

def tsLe (a b : RawEvent) : Bool := lexLe a.timestamp.data b.timestamp.data

/-- Stable insertion: an element is placed before the first existing element
it compares `≤` to, hence after every earlier-inserted equal element. -/
def insertEvent (a : RawEvent) : List RawEvent → List RawEvent
  | [] => [a]
  | x :: xs => if tsLe a x then a :: x :: xs else x :: insertEvent a xs

/-- `events.sort(key=lambda e: e.get("timestamp"))` — a stable ascending
sort keyed on the raw timestamp string.  Python's Timsort is modelled by a
stable insertion sort: stable sorts under the same key agree on every
input, so the two are extensionally identical. -/
def sortEvents (raw : List RawEvent) : List RawEvent := raw.foldr insertEvent []

/-! ### Session construction (vis.py) -/

/-- An event after timestamp parsing and `dict.get` defaulting:
`project = events[i].get("project", "Unknown")`,
`color = events[i].get("color", "#cccccc")`. -/
structure PEvent where
  t : Nat
  project : String
  color : String
  deriving DecidableEq, Repr

def toPEvent (e : RawEvent) (t : Nat) : PEvent :=
  ⟨t, e.project.getD "Unknown", e.color.getD "#cccccc"⟩

/-- A session tuple `(start, end, project, color)`; `end` is a Lean keyword,
so the field is named `stop`. -/
structure Session where
  start : Nat
  stop : Nat
  project : String
  color : String
  deriving DecidableEq, Repr

/-- The pairwise loop of vis.py: one session per adjacent pair of the sorted
log, ending at the next event when on the same date, else at the following
midnight. -/
def pairSessions : List PEvent → List Session
  | a :: b :: rest =>
      ⟨a.t, if dayOf a.t = dayOf b.t then b.t else day_end a.t, a.project, a.color⟩
        :: pairSessions (b :: rest)
  | _ => []

def isPrefixL : List Char → List Char → Bool
  | [], _ => true
  | _ :: _, [] => false
  | a :: as, b :: bs => a == b && isPrefixL as bs

def containsSubAux (needle : List Char) : List Char → Bool
  | [] => isPrefixL needle []
  | c :: rest => isPrefixL needle (c :: rest) || containsSubAux needle rest

/-- Python substring containment: `needle in hay`. -/
def strContains (hay needle : String) : Bool := containsSubAux needle.data hay.data

def END_OF_DAY : String := "END_OF_DAY"

/-- The synthesized final session of vis.py: zero duration when the last
project name contains `"END_OF_DAY"`, else a fixed one-hour extension. -/
def mkFinalSession (e : PEvent) : Session :=
  ⟨e.t, if strContains e.project END_OF_DAY then e.t else e.t + 3600, e.project, e.color⟩

/-- Sessions before the midnight-splitting pass: the pairwise sessions
followed by the synthesized final session (vis.py is only reached with a
non-empty event list; the empty case returns no sessions). -/
def preSplitSessions (pes : List PEvent) : List Session :=
  match pes.getLast? with
  | none => []
  | some lastE => pairSessions pes ++ [mkFinalSession lastE]

/-- The `while` loop of `split_session_by_day`: emit whole-day fragments up
to each next midnight while the current point's date precedes the end's
date, then the tail fragment if non-empty.  The loop advances `current` to
the next midnight, so its date rises by one each iteration and the loop
runs exactly `dayOf stop - dayOf current` times; that count is passed as
structural fuel (`splitGo_spend` below shows the fuel is never exhausted
early, so this is the loop's exact semantics). -/
def splitGo : Nat → Nat → Nat → String → String → List Session
  | 0, current, stop, project, color =>
      if current < stop then [⟨current, stop, project, color⟩] else []
  | fuel + 1, current, stop, project, color =>
      if dayOf current < dayOf stop then
        ⟨current, day_end current, project, color⟩ ::
          splitGo fuel (day_end current) stop project color
      else if current < stop then [⟨current, stop, project, color⟩] else []

/-- `split_session_by_day` from vis.py. -/
def split_session_by_day (start stop : Nat) (project color : String) : List Session :=
  splitGo (dayOf stop - dayOf start) start stop project color

/-- The midnight-splitting pass: sessions already confined to one date pass
through unchanged, the rest are split. -/
def splitPass (ss : List Session) : List Session :=
  ss.flatMap fun s =>
    if dayOf s.start = dayOf s.stop then [s]
    else split_session_by_day s.start s.stop s.project s.color

/-- Parse every event's timestamp in order (the vis.py loop parses each
event as it is reached; the first failure aborts the run) and apply the
`dict.get` defaults. -/
def parseAll : List RawEvent → Except String (List PEvent)
  | [] => .ok []
  | e :: rest =>
      match parse_event e.timestamp with
      | .error msg => .error msg
      | .ok t =>
          match parseAll rest with
          | .error msg => .error msg
          | .ok pes => .ok (toPEvent e t :: pes)

/-- The sorted, parsed, defaulted event list of a visualiser run. -/
def parsedEvents (raw : List RawEvent) : Except String (List PEvent) :=
  parseAll (sortEvents raw)

/-- The session list of vis.py before midnight splitting. -/
def buildSessions (raw : List RawEvent) : Except String (List Session) :=
  (parsedEvents raw).map preSplitSessions

/-- The session list of vis.py after the midnight-splitting pass
(`sessions_split`). -/
def buildSplitSessions (raw : List RawEvent) : Except String (List Session) :=
  (parsedEvents raw).map fun pes => splitPass (preSplitSessions pes)

/-! ### Day grouping and timeline layout (vis.py, plotting loop) -/

def insertNat (a : Nat) : List Nat → List Nat
  | [] => [a]
  | x :: xs => if a ≤ x then a :: x :: xs else x :: insertNat a xs

def sortNat (l : List Nat) : List Nat := l.foldr insertNat []

/-- `days = sorted(sessions_by_day.keys())`: the sorted distinct start
dates.  Python sorts the ISO date strings; for years 0001–9999 ISO
date-string order coincides with ordinal order, so the keys are embedded as
ordinals directly. -/
def dayKeys (ss : List Session) : List Nat :=
  sortNat ((ss.map fun s => dayOf s.start).dedup)

/-- The bucket of `sessions_by_day` for day `d`: the split sessions whose
start date is `d`, in list order (dicts preserve per-key insertion order). -/
def sessionsOnDay (ss : List Session) (d : Nat) : List Session :=
  ss.filter fun s => dayOf s.start == d

def hourOf (t : Nat) : Nat := t % secPerDay / 3600

def minuteOf (t : Nat) : Nat := t % 3600 / 60

def secondOf (t : Nat) : Nat := t % 60

/-- `start.hour + start.minute/60 + start.second/3600` — float arithmetic in
the source, embedded exactly in ℚ. -/
def fracHour (t : Nat) : ℚ :=
  (hourOf t : ℚ) + (minuteOf t : ℚ) / 60 + (secondOf t : ℚ) / 3600

structure Rect where
  column : Nat
  yStart : ℚ
  yEnd : ℚ
  project : String
  color : String
  deriving DecidableEq, Repr

/-- The rectangle drawn for one session in column `i`:
`end_hour` is 24.0 when the clipped end lies on a different date. -/
def rectOf (i : Nat) (s : Session) : Rect :=
  { column := i
    yStart := fracHour s.start
    yEnd := if dayOf s.stop ≠ dayOf s.start then 24 else fracHour s.stop
    project := s.project
    color := s.color }

/-- `for i, day in enumerate(days): for session in sessions_by_day[day]` —
one rectangle per session of the day-grouped map. -/
def layoutRects (ss : List Session) : List Rect :=
  (dayKeys ss).enum.flatMap fun p => (sessionsOnDay ss p.2).map (rectOf p.1)

structure Overlay where
  column : Nat
  yStart : ℚ
  yEnd : ℚ
  deriving DecidableEq, Repr

def lateCutoff : ℚ := 19

/-- The unfilled red outline drawn when a rectangle reaches past the 19.0
cutoff: from `max(start_hour, 19)` to `end_hour`. -/
def overlayOf (r : Rect) : Option Overlay :=
  if lateCutoff < r.yEnd then
    some { column := r.column, yStart := max r.yStart lateCutoff, yEnd := r.yEnd }
  else none

def layoutOverlays (ss : List Session) : List Overlay :=
  (layoutRects ss).filterMap overlayOf

structure Label where
  column : Nat
  yMid : ℚ
  text : String
  deriving DecidableEq, Repr

/-- The project text drawn only when `duration >= 0.2` hours. -/
def labelOf (r : Rect) : Option Label :=
  if (1 : ℚ) / 5 ≤ r.yEnd - r.yStart then
    some { column := r.column, yMid := r.yStart + (r.yEnd - r.yStart) / 2, text := r.project }
  else none

def layoutLabels (ss : List Session) : List Label :=
  (layoutRects ss).filterMap labelOf

/-! ### The visualiser entry point (vis.py, lines 9–25) -/

/-- State of `history.json` as seen by `visualiser()`: absent, present but
not valid JSON, or a JSON array of events. -/
inductive LogFile where
  | missing
  | invalidJson
  | events (raw : List RawEvent)
  deriving DecidableEq

/-- Observable outcome of `visualiser()`: a printed message followed by an
early return, an uncaught parse exception, or a rendered chart. -/
inductive VisOutcome where
  | message (text : String)
  | failure (text : String)
  | chart (rects : List Rect) (overlays : List Overlay) (labels : List Label)
  deriving DecidableEq

def visualiser : LogFile → VisOutcome
  | .missing => .message "File \x27history.json\x27 not found."
  | .invalidJson => .message "Error: The file is not valid JSON."
  | .events [] => .message "No events found in history."
  | .events (e :: rest) =>
      match buildSplitSessions (e :: rest) with
      | .error msg => .failure msg
      | .ok ss => .chart (layoutRects ss) (layoutOverlays ss) (layoutLabels ss)

/-! ### MD5 (`hashlib.md5`), embedded over byte lists -/

def w32 : Nat := 4294967296

def mask32 (x : Nat) : Nat := x % w32

/-- Bitwise complement on 32-bit words (for `x < 2^32`). -/
def not32 (x : Nat) : Nat := 4294967295 - mask32 x

def rotl32 (x n : Nat) : Nat :=
  mask32 (x <<< n) ||| (mask32 x >>> (32 - n))

/-- The 64 MD5 sine-derived constants `⌊2^32·|sin(i+1)|⌋`. -/
def md5K : List Nat :=
  [0xd76aa478, 0xe8c7b756, 0x242070db, 0xc1bdceee,
   0xf57c0faf, 0x4787c62a, 0xa8304613, 0xfd469501,
   0x698098d8, 0x8b44f7af, 0xffff5bb1, 0x895cd7be,
   0x6b901122, 0xfd987193, 0xa679438e, 0x49b40821,
   0xf61e2562, 0xc040b340, 0x265e5a51, 0xe9b6c7aa,
   0xd62f105d, 0x02441453, 0xd8a1e681, 0xe7d3fbc8,
   0x21e1cde6, 0xc33707d6, 0xf4d50d87, 0x455a14ed,
   0xa9e3e905, 0xfcefa3f8, 0x676f02d9, 0x8d2a4c8a,
   0xfffa3942, 0x8771f681, 0x6d9d6122, 0xfde5380c,
   0xa4beea44, 0x4bdecfa9, 0xf6bb4b60, 0xbebfbc70,
   0x289b7ec6, 0xeaa127fa, 0xd4ef3085, 0x04881d05,
   0xd9d4d039, 0xe6db99e5, 0x1fa27cf8, 0xc4ac5665,
   0xf4292244, 0x432aff97, 0xab9423a7, 0xfc93a039,
   0x655b59c3, 0x8f0ccc92, 0xffeff47d, 0x85845dd1,
   0x6fa87e4f, 0xfe2ce6e0, 0xa3014314, 0x4e0811a1,
   0xf7537e82, 0xbd3af235, 0x2ad7d2bb, 0xeb86d391]

/-- The per-round left-rotation amounts. -/
def md5S : List Nat :=
  [7, 12, 17, 22, 7, 12, 17, 22, 7, 12, 17, 22, 7, 12, 17, 22,
   5, 9, 14, 20, 5, 9, 14, 20, 5, 9, 14, 20, 5, 9, 14, 20,
   4, 11, 16, 23, 4, 11, 16, 23, 4, 11, 16, 23, 4, 11, 16, 23,
   6, 10, 15, 21, 6, 10, 15, 21, 6, 10, 15, 21, 6, 10, 15, 21]

/-- Little-endian 32-bit word at byte offset `j` of a block. -/
def wordAt (bs : List Nat) (j : Nat) : Nat :=
  bs.getD j 0 + 256 * bs.getD (j + 1) 0 + 65536 * bs.getD (j + 2) 0 +
    16777216 * bs.getD (j + 3) 0

/-- Round mixing function and message-word index for round `i`. -/
def md5F (b c d i : Nat) : Nat × Nat :=
  if i < 16 then ((b &&& c) ||| (not32 b &&& d), i)
  else if i < 32 then ((d &&& b) ||| (not32 d &&& c), (5 * i + 1) % 16)
  else if i < 48 then (b ^^^ c ^^^ d, (3 * i + 5) % 16)
  else (c ^^^ (b ||| not32 d), (7 * i) % 16)

def md5Step (block : List Nat) (st : Nat × Nat × Nat × Nat) (i : Nat) :
    Nat × Nat × Nat × Nat :=
  let (a, b, c, d) := st
  let (f, g) := md5F b c d i
  let f2 := mask32 (f + a + md5K.getD i 0 + wordAt block (4 * g))
  (d, mask32 (b + rotl32 f2 (md5S.getD i 0)), b, c)

def md5Block (st : Nat × Nat × Nat × Nat) (block : List Nat) :
    Nat × Nat × Nat × Nat :=
  let r := (List.range 64).foldl (md5Step block) st
  (mask32 (st.1 + r.1), mask32 (st.2.1 + r.2.1),
   mask32 (st.2.2.1 + r.2.2.1), mask32 (st.2.2.2 + r.2.2.2))

/-- Little-endian byte expansions. -/
def le4 (n : Nat) : List Nat :=
  [n % 256, n / 256 % 256, n / 65536 % 256, n / 16777216 % 256]

def le8 (n : Nat) : List Nat :=
  le4 n ++ le4 (n / 4294967296)

/-- MD5 padding: a `0x80` byte, zeros to 56 mod 64, then the bit length as
a little-endian 64-bit quantity. -/
def md5Pad (msg : List Nat) : List Nat :=
  let L := msg.length
  let z := (56 + 64 - (L + 1) % 64) % 64
  msg ++ 128 :: (List.replicate z 0 ++ le8 (8 * L % 18446744073709551616))

def chunks64 : List Nat → List (List Nat)
  | [] => []
  | c :: rest => (c :: rest).take 64 :: chunks64 ((c :: rest).drop 64)
termination_by l => l.length
decreasing_by
  simp only [List.length_drop, List.length_cons]
  omega

def md5Init : Nat × Nat × Nat × Nat := (0x67452301, 0xefcdab89, 0x98badcfe, 0x10325476)

/-- The 16 digest bytes of MD5 over a byte message. -/
def md5Digest (msg : List Nat) : List Nat :=
  let r := (chunks64 (md5Pad msg)).foldl md5Block md5Init
  le4 r.1 ++ le4 r.2.1 ++ le4 r.2.2.1 ++ le4 r.2.2.2

def stringBytes (s : String) : List Nat := s.toUTF8.toList.map (fun b => b.toNat)

/-- `int(hashlib.md5(name.encode()).hexdigest(), 16)`: the digest bytes read
as a big-endian number. -/
def md5Int (name : String) : Nat :=
  (md5Digest (stringBytes name)).foldl (fun acc b => acc * 256 + b) 0

/-! ### Color assignment (main.py) -/

/-- An RGB triple of 0–1 floats, embedded exactly in ℚ. -/
abbrev RGB := ℚ × ℚ × ℚ

/-- CPython `colorsys.hsv_to_rgb`; `int()` truncation of the nonnegative
`h*6.0` is `Rat.floor`, and the Python `%` on ints is `Int.emod`. -/
def hsv_to_rgb (h s v : ℚ) : RGB :=
  if s = 0 then (v, v, v)
  else
    let i : ℤ := Rat.floor (h * 6)
    let f : ℚ := h * 6 - (i : ℚ)
    let p := v * (1 - s)
    let q := v * (1 - s * f)
    let t := v * (1 - s * (1 - f))
    let j := i % 6
    if j = 0 then (v, t, p)
    else if j = 1 then (q, v, p)
    else if j = 2 then (p, v, t)
    else if j = 3 then (p, q, v)
    else if j = 4 then (t, p, v)
    else (v, p, q)

/-- The cache-independent color of `get_color`: hue `(md5 % 360)/360`,
saturation 0.6, value 0.9. -/
def pureColor (name : String) : RGB :=
  hsv_to_rgb ((md5Int name % 360 : Nat) / 360) (6 / 10) (9 / 10)

/-- The process-wide `project_color_cache`, as an association list; dicts
hold at most one entry per key, so lookup takes the first match. -/
abbrev ColorCache := List (String × RGB)

def cacheLookup (cache : ColorCache) (name : String) : Option RGB :=
  (cache.find? fun p => p.1 == name).map fun p => p.2

/-- `get_color` from main.py: answer from the cache when present, else
compute the hash color and record it. -/
def get_color (cache : ColorCache) (name : String) : RGB × ColorCache :=
  match cacheLookup cache name with
  | some c => (c, cache)
  | none =>
      let c := pureColor name
      (c, (name, c) :: cache)

def hexDigitChar (n : Nat) : Char :=
  if n < 10 then Char.ofNat (48 + n) else Char.ofNat (87 + n)

/-- Two lowercase hex digits (`'{:02x}'.format` for values ≤ 255). -/
def toHex2 (n : Nat) : String :=
  String.mk [hexDigitChar (n / 16 % 16), hexDigitChar (n % 16)]

/-- `rgb_to_hex` from main.py; Python `int()` truncates toward zero, which
on these nonnegative channel values is the floor. -/
def rgb_to_hex (c : RGB) : String :=
  "#" ++ toHex2 (Rat.floor (c.1 * 255)).toNat ++
    toHex2 (Rat.floor (c.2.1 * 255)).toNat ++
    toHex2 (Rat.floor (c.2.2 * 255)).toNat

/-! ### The switch operation (main.py) -/

/-- A persisted switch event; the timestamp is `datetime.now()`, passed in
explicitly as `now`. -/
structure MEvent where
  timestamp : Nat
  project : String
  color : String
  deriving DecidableEq, Repr

/-- The dashboard's mutable state: the in-memory `history`, the log as last
written by `save_history`, the current project and its start time, and the
color cache. -/
structure AppState where
  history : List MEvent
  persisted : List MEvent
  current : Option String
  startTime : Option Nat
  cache : ColorCache
  deriving DecidableEq

/-- Python truthiness of the `color_override` argument (`None` and `""` are
falsy). -/
def truthy : Option String → Bool
  | none => false
  | some s => !(s == "")

/-- `switch_project` from main.py: an early return when the project is
already current; otherwise choose the color (sentinel red first, then a
truthy override, then the hash color), append the event and save the whole
history. -/
def switch_project (now : Nat) (st : AppState) (project : String)
    (color_override : Option String) : AppState :=
  if st.current = some project then st
  else
    let (color, cache2) :=
      if project = END_OF_DAY then ("#ff6666", st.cache)
      else if truthy color_override then (color_override.getD "", st.cache)
      else
        let r := get_color st.cache project
        (rgb_to_hex r.1, r.2)
    let ev : MEvent := { timestamp := now, project := project, color := color }
    let hist := st.history ++ [ev]
    { history := hist, persisted := hist, current := some project,
      startTime := some now, cache := cache2 }

/-! ### Statement helpers -/

/-- Whether a visualiser outcome is a rendered chart. -/
def producesChart : VisOutcome → Bool
  | .chart _ _ _ => true
  | _ => false

/-- The parsed timestamps of a raw event list, in list order. -/
def timesOf (es : List RawEvent) : List Nat :=
  es.filterMap fun e => (parse_event e.timestamp).toOption

end Switchboard

namespace Switchboard

deriving instance DecidableEq for Except

/-! ## General lemmas about the embedding -/

theorem dayOf_day_end (t : Nat) : dayOf (day_end t) = dayOf t + 1 := by
  simp only [dayOf, day_end, secPerDay]
  omega

/-- With exhausted fuel the loop condition is false, so the two exit
branches coincide: any fuel bounding the remaining day difference gives the
same result. -/
theorem splitGo_spend (fuel fuel2 current stop : Nat) (p c : String)
    (h : dayOf stop - dayOf current ≤ fuel) (h2 : dayOf stop - dayOf current ≤ fuel2) :
    splitGo fuel current stop p c = splitGo fuel2 current stop p c := by
  induction fuel generalizing fuel2 current with
  | zero =>
      cases fuel2 with
      | zero => rfl
      | succ m =>
          simp only [splitGo]
          have : ¬ dayOf current < dayOf stop := by omega
          simp [this]
  | succ n ih =>
      cases fuel2 with
      | zero =>
          simp only [splitGo]
          have : ¬ dayOf current < dayOf stop := by omega
          simp [this]
      | succ m =>
          simp only [splitGo]
          by_cases hlt : dayOf current < dayOf stop
          · simp only [hlt, if_true]
            exact congrArg (List.cons _)
              (ih m (day_end current) (by rw [dayOf_day_end]; omega)
                (by rw [dayOf_day_end]; omega))
          · simp [hlt]

theorem t_lt_day_end (t : Nat) : t < day_end t := by
  simp only [dayOf, day_end, secPerDay]
  omega

theorem dayOf_mono {a b : Nat} (h : a ≤ b) : dayOf a ≤ dayOf b :=
  Nat.div_le_div_right h

theorem day_end_le_of_dayOf_lt {a b : Nat} (h : dayOf a < dayOf b) : day_end a ≤ b := by
  simp only [dayOf, day_end, secPerDay] at *
  omega

theorem lt_day_end_of_dayOf_eq {a b : Nat} (h : dayOf a = dayOf b) : b < day_end a := by
  simp only [dayOf, day_end, secPerDay] at *
  omega

theorem day_end_mod (t : Nat) : day_end t % secPerDay = 0 := by
  simp [day_end, secPerDay]

/-- Whatever branch produced it, the head of a `splitGo` result starts at
the loop's entry point. -/
theorem splitGo_cons_start (fuel current stop : Nat) (p c : String) (f : Session)
    (rest : List Session) (h : splitGo fuel current stop p c = f :: rest) :
    f.start = current := by
  cases fuel with
  | zero =>
      simp only [splitGo] at h
      by_cases hlt : current < stop
      · simp [hlt] at h
        rw [← h.1]
      · simp [hlt] at h
  | succ n =>
      simp only [splitGo] at h
      by_cases hlt : dayOf current < dayOf stop
      · simp only [hlt, if_true] at h
        cases h
        rfl
      · simp only [hlt, if_false] at h
        by_cases hlt2 : current < stop
        · simp [hlt2] at h
          rw [← h.1]
        · simp [hlt2] at h

theorem splitGo_ne_nil (fuel current stop : Nat) (p c : String) (h : current < stop) :
    splitGo fuel current stop p c ≠ [] := by
  cases fuel with
  | zero => simp [splitGo, h]
  | succ n =>
      simp only [splitGo]
      by_cases hlt : dayOf current < dayOf stop
      · simp [hlt]
      · simp [hlt, h]

/-- Every fragment keeps the project and color, has positive duration, and
either ends at the midnight after its own start or stays within one date.
The fuel hypothesis is the loop invariant. -/
theorem splitGo_mem (fuel : Nat) : ∀ (current stop : Nat) (p c : String),
    dayOf stop - dayOf current ≤ fuel →
    ∀ f ∈ splitGo fuel current stop p c,
      f.project = p ∧ f.color = c ∧ f.start < f.stop ∧
        (f.stop = day_end f.start ∨ dayOf f.start = dayOf f.stop) := by
  induction fuel with
  | zero =>
      intro current stop p c hf f hmem
      simp only [splitGo] at hmem
      by_cases hlt : current < stop
      · simp only [hlt, if_true, List.mem_singleton] at hmem
        subst hmem
        refine ⟨rfl, rfl, hlt, Or.inr ?_⟩
        show dayOf current = dayOf stop
        have h1 := dayOf_mono (Nat.le_of_lt hlt)
        omega
      · simp [hlt] at hmem
  | succ n ih =>
      intro current stop p c hf f hmem
      simp only [splitGo] at hmem
      by_cases hlt : dayOf current < dayOf stop
      · simp only [hlt, if_true, List.mem_cons] at hmem
        rcases hmem with rfl | hmem
        · exact ⟨rfl, rfl, t_lt_day_end current, Or.inl rfl⟩
        · refine ih (day_end current) stop p c ?_ f hmem
          rw [dayOf_day_end]
          omega
      · simp only [hlt, if_false] at hmem
        by_cases hlt2 : current < stop
        · simp only [hlt2, if_true, List.mem_singleton] at hmem
          subst hmem
          refine ⟨rfl, rfl, hlt2, Or.inr ?_⟩
          show dayOf current = dayOf stop
          have h1 := dayOf_mono (Nat.le_of_lt hlt2)
          omega
        · simp [hlt2] at hmem

/-- Adjacent fragments tile: each non-final fragment ends exactly where the
next begins, at a midnight boundary. -/
theorem splitGo_chain (fuel : Nat) : ∀ (current stop : Nat) (p c : String),
    (splitGo fuel current stop p c).Chain'
      (fun f g => f.stop = g.start ∧ f.stop % secPerDay = 0) := by
  induction fuel with
  | zero =>
      intro current stop p c
      simp only [splitGo]
      by_cases hlt : current < stop <;> simp [hlt]
  | succ n ih =>
      intro current stop p c
      simp only [splitGo]
      by_cases hlt : dayOf current < dayOf stop
      · simp only [hlt, if_true]
        rw [List.chain'_cons']
        refine ⟨?_, ih (day_end current) stop p c⟩
        intro g hg
        cases hrec : splitGo n (day_end current) stop p c with
        | nil => rw [hrec] at hg; simp at hg
        | cons g0 gs =>
            rw [hrec] at hg
            simp only [List.head?_cons, Option.mem_def, Option.some.injEq] at hg
            subst hg
            exact ⟨(splitGo_cons_start n (day_end current) stop p c g0 gs hrec).symm,
              day_end_mod current⟩
      · by_cases hlt2 : current < stop <;> simp [hlt, hlt2]

/-- The loop's last fragment ends exactly at the original `stop`. -/
theorem splitGo_last (fuel : Nat) : ∀ (current stop : Nat) (p c : String),
    dayOf stop - dayOf current ≤ fuel → current < stop →
    ∃ fl, (splitGo fuel current stop p c).getLast? = some fl ∧ fl.stop = stop := by
  induction fuel with
  | zero =>
      intro current stop p c hf h
      simp [splitGo, h]
  | succ n ih =>
      intro current stop p c hf h
      simp only [splitGo]
      by_cases hlt : dayOf current < dayOf stop
      · simp only [hlt, if_true]
        have hde : day_end current ≤ stop := day_end_le_of_dayOf_lt hlt
        by_cases heq : day_end current = stop
        · have hrec : splitGo n (day_end current) stop p c = [] := by
            cases n with
            | zero => simp [splitGo, heq]
            | succ m =>
                simp only [splitGo, heq]
                simp
          rw [hrec]
          exact ⟨_, rfl, heq⟩
        · have hlt3 : day_end current < stop := Nat.lt_of_le_of_ne hde heq
          obtain ⟨fl, hfl, hstop⟩ := ih (day_end current) stop p c
            (by rw [dayOf_day_end]; omega) hlt3
          refine ⟨fl, ?_, hstop⟩
          cases hrec : splitGo n (day_end current) stop p c with
          | nil => exact absurd hrec (splitGo_ne_nil n (day_end current) stop p c hlt3)
          | cons g0 gs =>
              rw [hrec] at hfl
              rw [List.getLast?_cons_cons]
              exact hfl
      · simp only [hlt, if_false, h, if_true]
        exact ⟨_, rfl, rfl⟩

theorem insertNat_mem (a b : Nat) : ∀ l : List Nat, b ∈ insertNat a l ↔ b = a ∨ b ∈ l
  | [] => by simp [insertNat]
  | x :: xs => by
      simp only [insertNat]
      by_cases hle : a ≤ x
      · rw [if_pos hle]
        simp [List.mem_cons]
      · rw [if_neg hle]
        simp only [List.mem_cons, insertNat_mem a b xs]
        tauto

theorem sortNat_mem (b : Nat) : ∀ l : List Nat, b ∈ sortNat l ↔ b ∈ l
  | [] => Iff.rfl
  | x :: xs => by
      simp only [sortNat, List.foldr_cons, List.mem_cons]
      rw [show List.foldr insertNat [] xs = sortNat xs from rfl] at *
      rw [insertNat_mem, sortNat_mem b xs]

/-- The start date of any split session is one of the chart's day keys. -/
theorem dayKeys_mem (ss : List Session) (s : Session) (hs : s ∈ ss) :
    dayOf s.start ∈ dayKeys ss := by
  rw [dayKeys, sortNat_mem, List.mem_dedup]
  exact List.mem_map.mpr ⟨s, hs, rfl⟩

/-- The parse-and-default pass succeeds exactly pointwise: index `i` of the
output is `toPEvent` of index `i` of the input at its parsed time. -/
theorem parseAll_get : ∀ (l : List RawEvent) (out : List PEvent),
    parseAll l = .ok out → ∀ (i : Nat) (e : RawEvent), l[i]? = some e →
    ∃ t, parse_event e.timestamp = .ok t ∧ out[i]? = some (toPEvent e t)
  | [], out, h, i, e, he => by simp at he
  | a :: rest, out, h, i, e, he => by
      simp only [parseAll] at h
      cases hp : parse_event a.timestamp with
      | error msg => rw [hp] at h; exact absurd h (by simp)
      | ok t =>
          rw [hp] at h
          cases hr : parseAll rest with
          | error msg => rw [hr] at h; exact absurd h (by simp)
          | ok pes =>
              rw [hr] at h
              cases h
              cases i with
              | zero =>
                  simp only [List.getElem?_cons_zero, Option.some.injEq] at he
                  subst he
                  exact ⟨t, hp, by simp⟩
              | succ j =>
                  simp only [List.getElem?_cons_succ] at he ⊢
                  exact parseAll_get rest pes hr j e he

theorem parseAll_length : ∀ (l : List RawEvent) (out : List PEvent),
    parseAll l = .ok out → out.length = l.length
  | [], out, h => by simp only [parseAll] at h; cases h; rfl
  | a :: rest, out, h => by
      simp only [parseAll] at h
      cases hp : parse_event a.timestamp with
      | error msg => rw [hp] at h; exact absurd h (by simp)
      | ok t =>
          rw [hp] at h
          cases hr : parseAll rest with
          | error msg => rw [hr] at h; exact absurd h (by simp)
          | ok pes =>
              rw [hr] at h
              cases h
              simp [parseAll_length rest pes hr]

theorem pairSessions_length : ∀ l : List PEvent, (pairSessions l).length = l.length - 1
  | [] => rfl
  | [_] => rfl
  | a :: b :: rest => by
      have := pairSessions_length (b :: rest)
      simp only [pairSessions, List.length_cons] at this ⊢
      omega

/-- The pairwise loop, read off at one index: the session at position `i`
starts at event `i`, keeps its project and color, and ends at event `i+1`
or at the following midnight when the dates differ. -/
theorem pairSessions_get : ∀ (l : List PEvent) (i : Nat) (a b : PEvent),
    l[i]? = some a → l[i + 1]? = some b →
    (pairSessions l)[i]? = some
      ⟨a.t, if dayOf a.t = dayOf b.t then b.t else day_end a.t, a.project, a.color⟩
  | [], i, a, b, ha, hb => by simp at ha
  | [x], 0, a, b, ha, hb => by simp at hb
  | [x], i + 1, a, b, ha, hb => by simp at ha
  | x :: y :: rest, 0, a, b, ha, hb => by
      simp only [List.getElem?_cons_zero, Option.some.injEq] at ha
      have hb2 : y = b := by simpa using hb
      subst ha
      subst hb2
      simp [pairSessions]
  | x :: y :: rest, i + 1, a, b, ha, hb => by
      rw [List.getElem?_cons_succ] at ha hb
      simp only [pairSessions, List.getElem?_cons_succ]
      exact pairSessions_get (y :: rest) i a b ha hb

/-! ## Claim C10 — visualiser error reporting -/

/-- C10: on a missing log file, a file that is not valid JSON, and a log
with zero events, `visualiser` reports three pairwise distinct
human-readable messages and produces no chart (no sessions are built), so
an empty log is distinguishable from a missing file. -/
theorem c10_visualiser_distinct_messages :
    visualiser .missing = .message "File \x27history.json\x27 not found." ∧
    visualiser .invalidJson = .message "Error: The file is not valid JSON." ∧
    visualiser (.events []) = .message "No events found in history." ∧
    visualiser .missing ≠ visualiser .invalidJson ∧
    visualiser .missing ≠ visualiser (.events []) ∧
    visualiser .invalidJson ≠ visualiser (.events []) ∧
    producesChart (visualiser .missing) = false ∧
    producesChart (visualiser .invalidJson) = false ∧
    producesChart (visualiser (.events [])) = false := by
  decide

/-! ## Claim C2 — the synthesized final session -/

/-- A one-event log whose project strictly contains the sentinel as a
substring without being equal to it. -/
def c2raw : List RawEvent :=
  [⟨"2024-01-01T09:00:00", some "XEND_OF_DAYX", some "#abcabc"⟩]

/-- C2 counterexample: the code tests substring containment, not equality,
so the project `"XEND_OF_DAYX"` — different from the sentinel — still gets
a zero-duration final session, refuting the claimed "if and only if its
project is the end-of-day sentinel". -/
theorem c2_counterexample :
    buildSessions c2raw =
      .ok [{ start := 63839782800, stop := 63839782800,
             project := "XEND_OF_DAYX", color := "#abcabc" }] ∧
    "XEND_OF_DAYX" ≠ END_OF_DAY := by
  decide

/-- C2 (amended): for every non-empty event log that parses, the last
sorted event's session is synthesized with `start` at its timestamp, and
has zero duration if and only if its project CONTAINS the sentinel
`"END_OF_DAY"` as a substring; otherwise its end is exactly start plus the
fixed one-hour duration.  (The visualiser takes no clock input, so the
result is independent of elapsed real time.) -/
theorem c2_final_session (raw : List RawEvent) (pes : List PEvent) (lastE : PEvent)
    (h : parsedEvents raw = .ok pes) (hl : pes.getLast? = some lastE) :
    buildSessions raw = .ok (pairSessions pes ++ [mkFinalSession lastE]) ∧
    (mkFinalSession lastE).start = lastE.t ∧
    ((mkFinalSession lastE).stop = (mkFinalSession lastE).start ↔
      strContains lastE.project END_OF_DAY = true) ∧
    (strContains lastE.project END_OF_DAY = false →
      (mkFinalSession lastE).stop = (mkFinalSession lastE).start + 3600) := by
  refine ⟨?_, ?_, ?_, ?_⟩
  · simp [buildSessions, h, Except.map, preSplitSessions, hl]
  · rfl
  · by_cases hc : strContains lastE.project END_OF_DAY = true
    · simp [mkFinalSession, hc]
    · simp [mkFinalSession, hc]
  · intro hc
    simp [mkFinalSession, hc]

def c2wraw : List RawEvent :=
  [⟨"2024-01-01T09:00:00", some "END_OF_DAY", some "#ff6666"⟩]

def c2wpes : List PEvent := [⟨63839782800, "END_OF_DAY", "#ff6666"⟩]

def c2wlast : PEvent := ⟨63839782800, "END_OF_DAY", "#ff6666"⟩

/-- Witness for `c2_final_session` at a concrete one-event sentinel log. -/
theorem c2_final_session_witness :
    parsedEvents c2wraw = .ok c2wpes ∧ c2wpes.getLast? = some c2wlast ∧
    (buildSessions c2wraw = .ok (pairSessions c2wpes ++ [mkFinalSession c2wlast]) ∧
      (mkFinalSession c2wlast).start = c2wlast.t ∧
      ((mkFinalSession c2wlast).stop = (mkFinalSession c2wlast).start ↔
        strContains c2wlast.project END_OF_DAY = true) ∧
      (strContains c2wlast.project END_OF_DAY = false →
        (mkFinalSession c2wlast).stop = (mkFinalSession c2wlast).start + 3600)) :=
  ⟨by decide, by decide, c2_final_session c2wraw c2wpes c2wlast (by decide) (by decide)⟩

/-! ## Claim C1 — pairwise session construction -/

/-- C1: for every event log that parses with at least two events, the
pairwise pass yields exactly one session per adjacent pair of the sorted
log: its project and color come from the earlier event (defaulting to
`"Unknown"` and the neutral gray `"#cccccc"` when missing), its start is
the earlier event's timestamp, and its end is the later event's timestamp
when both fall on the same calendar date, else midnight at the start of
the day following the earlier event's date. -/
theorem c1_pairwise_sessions (raw : List RawEvent) (pes : List PEvent)
    (h : parsedEvents raw = .ok pes) (i : Nat) (_hi : i + 1 < pes.length) :
    (pairSessions pes).length = pes.length - 1 ∧
    ∀ e e2, (sortEvents raw)[i]? = some e → (sortEvents raw)[i + 1]? = some e2 →
      ∃ t t2, parse_event e.timestamp = .ok t ∧ parse_event e2.timestamp = .ok t2 ∧
        (pairSessions pes)[i]? = some
          { start := t,
            stop := if dayOf t = dayOf t2 then t2 else day_end t,
            project := e.project.getD "Unknown",
            color := e.color.getD "#cccccc" } := by
  refine ⟨pairSessions_length pes, ?_⟩
  intro e e2 he he2
  obtain ⟨t, hp, hg⟩ := parseAll_get (sortEvents raw) pes h i e he
  obtain ⟨t2, hp2, hg2⟩ := parseAll_get (sortEvents raw) pes h (i + 1) e2 he2
  exact ⟨t, t2, hp, hp2, pairSessions_get pes i (toPEvent e t) (toPEvent e2 t2) hg hg2⟩

def c1wraw : List RawEvent :=
  [⟨"2024-01-01T09:00:00", some "A", some "#111111"⟩,
   ⟨"2024-01-01T12:00:00", none, none⟩]

def c1wpes : List PEvent :=
  [⟨63839782800, "A", "#111111"⟩, ⟨63839793600, "Unknown", "#cccccc"⟩]

/-- Witness for `c1_pairwise_sessions` at a concrete two-event log. -/
theorem c1_pairwise_sessions_witness :
    parsedEvents c1wraw = .ok c1wpes ∧ 0 + 1 < c1wpes.length ∧
    ((pairSessions c1wpes).length = c1wpes.length - 1 ∧
      ∀ e e2, (sortEvents c1wraw)[0]? = some e → (sortEvents c1wraw)[0 + 1]? = some e2 →
        ∃ t t2, parse_event e.timestamp = .ok t ∧ parse_event e2.timestamp = .ok t2 ∧
          (pairSessions c1wpes)[0]? = some
            { start := t,
              stop := if dayOf t = dayOf t2 then t2 else day_end t,
              project := e.project.getD "Unknown",
              color := e.color.getD "#cccccc" }) :=
  ⟨by decide, by decide, c1_pairwise_sessions c1wraw c1wpes (by decide) 0 (by decide)⟩

/-! ## Claim C4 — the sort step -/

theorem lexLe_refl : ∀ l : List Char, lexLe l l = true
  | [] => rfl
  | c :: cs => by simp [lexLe, lexLe_refl cs]

theorem lexLe_total : ∀ a b : List Char, lexLe a b = true ∨ lexLe b a = true
  | [], _ => Or.inl rfl
  | _ :: _, [] => Or.inr rfl
  | a :: as, b :: bs => by
      by_cases h1 : a < b
      · left
        simp [lexLe, h1]
      · by_cases h2 : b < a
        · right
          simp [lexLe, h2]
        · have hab : a = b := le_antisymm (le_of_not_lt h2) (le_of_not_lt h1)
          subst hab
          rcases lexLe_total as bs with h | h
          · left
            simp [lexLe, h]
          · right
            simp [lexLe, h]

theorem lexLe_trans : ∀ a b c : List Char,
    lexLe a b = true → lexLe b c = true → lexLe a c = true
  | [], _, _, _, _ => rfl
  | _ :: _, [], _, h1, _ => by simp [lexLe] at h1
  | _ :: _, _ :: _, [], _, h2 => by simp [lexLe] at h2
  | a :: as, b :: bs, c :: cs, h1, h2 => by
      simp only [lexLe, Bool.or_eq_true, Bool.and_eq_true, decide_eq_true_eq,
        beq_iff_eq] at h1 h2 ⊢
      rcases h1 with h1 | ⟨rfl, h1⟩
      · rcases h2 with h2 | ⟨rfl, h2⟩
        · exact Or.inl (lt_trans h1 h2)
        · exact Or.inl h1
      · rcases h2 with h2 | ⟨rfl, h2⟩
        · exact Or.inl h2
        · exact Or.inr ⟨rfl, lexLe_trans as bs cs h1 h2⟩

theorem insertEvent_mem (a y : RawEvent) :
    ∀ l : List RawEvent, y ∈ insertEvent a l ↔ y = a ∨ y ∈ l
  | [] => by simp [insertEvent]
  | x :: xs => by
      simp only [insertEvent]
      by_cases hle : tsLe a x = true
      · rw [if_pos hle]
        simp [List.mem_cons]
      · rw [if_neg hle]
        simp only [List.mem_cons, insertEvent_mem a y xs]
        tauto

theorem insertEvent_pairwise (a : RawEvent) :
    ∀ l : List RawEvent, l.Pairwise (fun x y => tsLe x y = true) →
    (insertEvent a l).Pairwise (fun x y => tsLe x y = true)
  | [], _ => by simp [insertEvent]
  | x :: xs, hl => by
      rw [List.pairwise_cons] at hl
      simp only [insertEvent]
      by_cases hle : tsLe a x = true
      · rw [if_pos hle, List.pairwise_cons]
        refine ⟨?_, List.pairwise_cons.mpr hl⟩
        intro y hy
        rcases List.mem_cons.mp hy with rfl | hy
        · exact hle
        · exact lexLe_trans _ _ _ hle (hl.1 y hy)
      · rw [if_neg hle, List.pairwise_cons]
        refine ⟨?_, insertEvent_pairwise a xs hl.2⟩
        intro y hy
        rcases (insertEvent_mem a y xs).mp hy with hya | hy
        · rw [hya]
          rcases lexLe_total a.timestamp.data x.timestamp.data with h | h
          · exact absurd h hle
          · exact h
        · exact hl.1 y hy

/-- The code's sorted log is ascending in the raw timestamp STRING. -/
theorem sortEvents_pairwise : ∀ raw : List RawEvent,
    (sortEvents raw).Pairwise (fun x y => tsLe x y = true)
  | [] => List.Pairwise.nil
  | e :: rest => insertEvent_pairwise e (sortEvents rest) (sortEvents_pairwise rest)

theorem filter_insertEvent (a : RawEvent) (k : String) :
    ∀ l : List RawEvent,
    (insertEvent a l).filter (fun e => e.timestamp == k) =
      if a.timestamp == k then a :: l.filter (fun e => e.timestamp == k)
      else l.filter (fun e => e.timestamp == k)
  | [] => by
      simp only [insertEvent, List.filter]
      by_cases hpa : (a.timestamp == k) = true <;> simp [hpa]
  | x :: xs => by
      simp only [insertEvent]
      by_cases hle : tsLe a x = true
      · rw [if_pos hle]
        by_cases hpa : (a.timestamp == k) = true <;> simp [List.filter_cons, hpa]
      · rw [if_neg hle, List.filter_cons]
        by_cases hpx : (x.timestamp == k) = true
        · have hpa : ¬ (a.timestamp == k) = true := by
            intro hpa
            have hx : x.timestamp = k := by simpa using hpx
            have ha : a.timestamp = k := by simpa using hpa
            have : tsLe a x = true := by
              simp only [tsLe, hx, ha]
              exact lexLe_refl k.data
            exact hle this
          rw [if_pos hpx, filter_insertEvent a k xs, if_neg hpa, if_neg hpa,
            List.filter_cons, if_pos hpx]
        · rw [if_neg hpx, filter_insertEvent a k xs, List.filter_cons, if_neg hpx]

/-- The sort is stable: for every key, the subsequence of events carrying
that exact timestamp string is preserved in original (append) order. -/
theorem sortEvents_stable : ∀ (raw : List RawEvent) (k : String),
    (sortEvents raw).filter (fun e => e.timestamp == k) =
      raw.filter (fun e => e.timestamp == k)
  | [], _ => rfl
  | e :: rest, k => by
      show (insertEvent e (sortEvents rest)).filter _ = _
      rw [filter_insertEvent e k (sortEvents rest), List.filter_cons]
      by_cases hpa : (e.timestamp == k) = true <;>
        simp [hpa, sortEvents_stable rest k]

/-- Two events on the same date whose hours are `10` (zero-padded) and `9`
(not zero-padded): the raw-string sort leaves them in this order. -/
def c4raw : List RawEvent :=
  [⟨"2024-01-01T10:00:00", some "A", none⟩,
   ⟨"2024-01-01T9:00:00", some "B", none⟩]

/-- C4 counterexample: the code sorts by the raw timestamp string, and on
`c4raw` the string-sorted log has parsed timestamps 10:00 then 9:00 —
NOT ascending in timestamp, refuting "orders the events by timestamp
ascending" for inputs the parser deliberately accepts. -/
theorem c4_counterexample :
    timesOf (sortEvents c4raw) = [63839786400, 63839782800] ∧
    ¬ 63839786400 ≤ 63839782800 := by
  decide

/-- C4 (amended): `SessionBuilder` first orders the events by their raw
timestamp STRING, lexicographically ascending (which coincides with
chronological order exactly when string order agrees with parsed order,
e.g. for canonical zero-padded ISO timestamps), with a stable sort — events
with equal timestamp strings keep their original relative order — and
builds all sessions from this sorted sequence. -/
theorem c4_sort_by_string (raw : List RawEvent) (k : String) :
    (sortEvents raw).Pairwise (fun x y => tsLe x y = true) ∧
    (sortEvents raw).filter (fun e => e.timestamp == k) =
      raw.filter (fun e => e.timestamp == k) ∧
    buildSessions raw = (parseAll (sortEvents raw)).map preSplitSessions ∧
    buildSplitSessions raw =
      (parseAll (sortEvents raw)).map fun pes => splitPass (preSplitSessions pes) :=
  ⟨sortEvents_pairwise raw, sortEvents_stable raw k, rfl, rfl⟩

/-! ## Claim C7 — the switch operation -/

def c7st : AppState := ⟨[], [], none, none, []⟩

/-- C7 counterexample: switching to `"END_OF_DAY"` WITH an explicit color
override appends the fixed alert-red `"#ff6666"`, not the override — the
code tests the sentinel before the override, refuting the claimed
precedence "colorOverride if given, else ...". -/
theorem c7_counterexample :
    c7st.current ≠ some "END_OF_DAY" ∧
    (switch_project 100 c7st "END_OF_DAY" (some "#123456")).history =
      [⟨100, "END_OF_DAY", "#ff6666"⟩] ∧
    "#ff6666" ≠ "#123456" := by
  decide

/-- C7 (amended): `switch(projectName, colorOverride?)` is a no-op when
`projectName` equals the currently active project; otherwise exactly one
new event is appended whose color is the fixed alert-red if `projectName`
is the sentinel `"END_OF_DAY"`, else `colorOverride` when given and truthy
(non-empty), else ColorAssigner's deterministic color — and the full
updated log is persisted immediately. -/
theorem c7_switch (now : Nat) (st : AppState) (project : String) (ov : Option String) :
    (st.current = some project → switch_project now st project ov = st) ∧
    (st.current ≠ some project →
      (switch_project now st project ov).history =
        st.history ++ [⟨now, project,
          if project = END_OF_DAY then "#ff6666"
          else if truthy ov then ov.getD ""
          else rgb_to_hex (get_color st.cache project).1⟩] ∧
      (switch_project now st project ov).persisted =
        (switch_project now st project ov).history ∧
      (switch_project now st project ov).current = some project) := by
  constructor
  · intro h
    simp [switch_project, h]
  · intro h
    by_cases hp : project = END_OF_DAY
    · subst hp
      refine ⟨?_, ?_, ?_⟩ <;> simp [switch_project, h]
    · by_cases ht : truthy ov = true
      · refine ⟨?_, ?_, ?_⟩ <;> simp [switch_project, h, hp, ht]
      · refine ⟨?_, ?_, ?_⟩ <;> simp [switch_project, h, hp, ht]

def c7stA : AppState := ⟨[⟨1, "A", "#5be56e"⟩], [⟨1, "A", "#5be56e"⟩], some "A", some 1, []⟩

/-- Witness for `c7_switch`: a no-op re-switch to the active project, and a
switch to a fresh project with a truthy override. -/
theorem c7_switch_witness :
    c7stA.current = some "A" ∧ c7stA.current ≠ some "B" ∧
    switch_project 5 c7stA "A" none = c7stA ∧
    ((switch_project 7 c7stA "B" (some "#222222")).history =
        c7stA.history ++ [⟨7, "B",
          if "B" = END_OF_DAY then "#ff6666"
          else if truthy (some "#222222") then (some "#222222").getD ""
          else rgb_to_hex (get_color c7stA.cache "B").1⟩] ∧
      (switch_project 7 c7stA "B" (some "#222222")).persisted =
        (switch_project 7 c7stA "B" (some "#222222")).history ∧
      (switch_project 7 c7stA "B" (some "#222222")).current = some "B") :=
  ⟨rfl, by decide, (c7_switch 5 c7stA "A" none).1 rfl,
    (c7_switch 7 c7stA "B" (some "#222222")).2 (by decide)⟩

/-! ## Claim C8 — deterministic hash-based colors -/

/-- The color cache only ever holds the pure hash colors (the invariant of
`project_color_cache`, which only `get_color` writes). -/
def CacheOk (cache : ColorCache) : Prop := ∀ p ∈ cache, p.2 = pureColor p.1

theorem cacheLookup_ok {cache : ColorCache} (hc : CacheOk cache) {name : String}
    {c : RGB} (h : cacheLookup cache name = some c) : c = pureColor name := by
  simp only [cacheLookup, Option.map_eq_some'] at h
  obtain ⟨p, hfind, hc2⟩ := h
  have hmem := List.mem_of_find?_eq_some hfind
  have hp := List.find?_some hfind
  have hname : p.1 = name := by simpa using hp
  rw [← hc2, hc p hmem, hname]

/-- C8: on any cache satisfying the invariant, `get_color` returns exactly
the HSV→RGB conversion of hue `(md5(name) mod 360)/360` at saturation 0.6
and value 0.9 (md5 being the wide 128-bit hash of the UTF-8 name), the
invariant is preserved, and an immediately repeated call returns the
bit-identical color. -/
theorem c8_get_color (cache : ColorCache) (hc : CacheOk cache) (name : String) :
    (get_color cache name).1 =
      hsv_to_rgb (((md5Int name % 360 : Nat) : ℚ) / 360) (6 / 10) (9 / 10) ∧
    CacheOk (get_color cache name).2 ∧
    (get_color (get_color cache name).2 name).1 = (get_color cache name).1 := by
  have h1 : ∀ cache2 : ColorCache, CacheOk cache2 →
      (get_color cache2 name).1 = pureColor name := by
    intro cache2 hc2
    unfold get_color
    cases hl : cacheLookup cache2 name with
    | none => rfl
    | some c => exact cacheLookup_ok hc2 hl
  have h2 : CacheOk (get_color cache name).2 := by
    unfold get_color
    cases hl : cacheLookup cache name with
    | none =>
        intro p hp
        rcases List.mem_cons.mp hp with rfl | hp
        · rfl
        · exact hc p hp
    | some c => exact hc
  refine ⟨h1 cache hc, h2, ?_⟩
  rw [h1 cache hc, h1 (get_color cache name).2 h2]

/-- Witness for `c8_get_color` at the empty cache. -/
theorem c8_get_color_witness :
    CacheOk [] ∧
    ((get_color [] "Falcon").1 =
        hsv_to_rgb (((md5Int "Falcon" % 360 : Nat) : ℚ) / 360) (6 / 10) (9 / 10) ∧
      CacheOk (get_color [] "Falcon").2 ∧
      (get_color (get_color [] "Falcon").2 "Falcon").1 = (get_color [] "Falcon").1) :=
  ⟨fun p hp => absurd hp (List.not_mem_nil p),
    c8_get_color [] (fun p hp => absurd hp (List.not_mem_nil p)) "Falcon"⟩

/-! ## Claim C6 — timeline layout geometry -/

theorem insertNat_nodup (a : Nat) : ∀ l : List Nat, l.Nodup → a ∉ l →
    (insertNat a l).Nodup
  | [], _, _ => List.nodup_cons.mpr ⟨List.not_mem_nil a, List.Pairwise.nil⟩
  | x :: xs, hnd, ha => by
      rw [List.nodup_cons] at hnd
      simp only [insertNat]
      by_cases hle : a ≤ x
      · rw [if_pos hle, List.nodup_cons, List.nodup_cons]
        exact ⟨fun hmem => ha hmem, hnd.1, hnd.2⟩
      · rw [if_neg hle, List.nodup_cons]
        refine ⟨?_, insertNat_nodup a xs hnd.2 (fun h => ha (List.mem_cons_of_mem x h))⟩
        intro hmem
        rcases (insertNat_mem a x xs).mp hmem with h | h
        · exact ha (h ▸ List.mem_cons_self x xs)
        · exact hnd.1 h

theorem sortNat_nodup : ∀ l : List Nat, l.Nodup → (sortNat l).Nodup
  | [], _ => List.Pairwise.nil
  | x :: xs, hnd => by
      rw [List.nodup_cons] at hnd
      show (insertNat x (sortNat xs)).Nodup
      exact insertNat_nodup x (sortNat xs) (sortNat_nodup xs hnd.2)
        (fun h => hnd.1 ((sortNat_mem x xs).mp h))

theorem flatMap_congr_mem {α β : Type} (f g : α → List β) :
    ∀ l : List α, (∀ a ∈ l, f a = g a) → l.flatMap f = l.flatMap g
  | [], _ => rfl
  | a :: l, h => by
      simp only [List.flatMap_cons]
      rw [h a (List.mem_cons_self a l),
        flatMap_congr_mem f g l (fun b hb => h b (List.mem_cons_of_mem a hb))]

/-- The nested plotting loop, rebased at column `n`: over a duplicate-free
day list covering every session key, it emits per session exactly the
rectangle whose column is the index of the session's start date in that day
list. -/
theorem layout_perm_aux : ∀ (ds : List Nat) (n : Nat) (ss : List Session),
    ds.Nodup → (∀ s ∈ ss, dayOf s.start ∈ ds) →
    ((ds.enumFrom n).flatMap fun p => (sessionsOnDay ss p.2).map (rectOf p.1)).Perm
      (ss.map fun s => rectOf (n + ds.indexOf (dayOf s.start)) s)
  | [], n, ss, _, hk => by
      have hss : ss = [] := by
        cases ss with
        | nil => rfl
        | cons s rest => exact absurd (hk s (List.mem_cons_self s rest)) (List.not_mem_nil _)
      subst hss
      simp
  | d :: ds, n, ss, hnd, hk => by
      have hnd2 := List.nodup_cons.mp hnd
      rw [List.enumFrom_cons]
      simp only [List.flatMap_cons]
      have htail : ∀ d2 ∈ ds, sessionsOnDay ss d2 =
          sessionsOnDay (ss.filter fun s => !(dayOf s.start == d)) d2 := by
        intro d2 hd2
        simp only [sessionsOnDay, List.filter_filter]
        apply List.filter_congr
        intro s _
        by_cases h : dayOf s.start = d2
        · have hne : ¬ dayOf s.start = d := by
            intro hc
            have hdd : d2 = d := by rw [← h, hc]
            rw [hdd] at hd2
            exact hnd2.1 hd2
          have hne2 : ¬ d2 = d := fun hc => hne (h.trans hc)
          simp [h, hne2]
        · simp [h]
      have hrec : ((ds.enumFrom (n + 1)).flatMap fun p =>
            (sessionsOnDay ss p.2).map (rectOf p.1)) =
          ((ds.enumFrom (n + 1)).flatMap fun p =>
            (sessionsOnDay (ss.filter fun s => !(dayOf s.start == d)) p.2).map (rectOf p.1)) := by
        apply flatMap_congr_mem
        intro p hp
        obtain ⟨h1, h2, h3⟩ := List.mem_enumFrom hp
        have hmem : p.2 ∈ ds := by
          rw [h3]
          exact List.getElem_mem _
        rw [htail p.2 hmem]
      have hkB : ∀ s ∈ ss.filter (fun s => !(dayOf s.start == d)), dayOf s.start ∈ ds := by
        intro s hs
        rw [List.mem_filter] at hs
        have hne : ¬ dayOf s.start = d := by simpa using hs.2
        rcases List.mem_cons.mp (hk s hs.1) with h | h
        · exact absurd h hne
        · exact h
      have ih := layout_perm_aux ds (n + 1) (ss.filter fun s => !(dayOf s.start == d))
        hnd2.2 hkB
      rw [hrec]
      have hperm : ((sessionsOnDay ss d).map (rectOf n) ++
          ((ds.enumFrom (n + 1)).flatMap fun p =>
            (sessionsOnDay (ss.filter fun s => !(dayOf s.start == d)) p.2).map
              (rectOf p.1))).Perm
          ((sessionsOnDay ss d).map (rectOf n) ++
            ((ss.filter fun s => !(dayOf s.start == d)).map fun s =>
              rectOf (n + 1 + ds.indexOf (dayOf s.start)) s)) :=
        List.Perm.append (List.Perm.refl _) ih
      refine hperm.trans ?_
      have hA : (sessionsOnDay ss d).map (rectOf n) =
          (sessionsOnDay ss d).map fun s =>
            rectOf (n + (d :: ds).indexOf (dayOf s.start)) s := by
        apply List.map_congr_left
        intro s hs
        rw [sessionsOnDay, List.mem_filter] at hs
        have hd : dayOf s.start = d := by simpa using hs.2
        rw [hd, List.indexOf_cons_self, Nat.add_zero]
      have hB : ((ss.filter fun s => !(dayOf s.start == d)).map fun s =>
            rectOf (n + 1 + ds.indexOf (dayOf s.start)) s) =
          ((ss.filter fun s => !(dayOf s.start == d)).map fun s =>
            rectOf (n + (d :: ds).indexOf (dayOf s.start)) s) := by
        apply List.map_congr_left
        intro s hs
        rw [List.mem_filter] at hs
        have hne : ¬ dayOf s.start = d := by simpa using hs.2
        rw [List.indexOf_cons_ne ds (fun h => hne h.symm)]
        congr 1
        omega
      rw [hA, hB, ← List.map_append]
      simp only [sessionsOnDay]
      exact List.Perm.map _ (List.filter_append_perm (fun s => dayOf s.start == d) ss)

/-- C6: the layout emits exactly one rectangle per session of the
day-grouped map, whose column is the index of the session's start date in
the sorted day list, whose `yStart` is the fractional hour of the start and
whose `yEnd` is 24.0 when the clipped end's date differs from the start's
date and the end's fractional hour otherwise; an unfilled-outline overlay
is emitted exactly for the rectangles whose `yEnd` exceeds the 19.0 cutoff,
covering `max(yStart, 19.0)` to `yEnd`; and a project text label is emitted
exactly for the rectangles with `yEnd - yStart ≥ 0.2` hours. -/
theorem c6_layout (ss : List Session) :
    (layoutRects ss).Perm (ss.map fun s =>
      { column := (dayKeys ss).indexOf (dayOf s.start),
        yStart := fracHour s.start,
        yEnd := if dayOf s.stop ≠ dayOf s.start then 24 else fracHour s.stop,
        project := s.project,
        color := s.color }) ∧
    lateCutoff = 19 ∧
    layoutOverlays ss = (layoutRects ss).filterMap (fun r =>
      if lateCutoff < r.yEnd then
        some { column := r.column, yStart := max r.yStart lateCutoff, yEnd := r.yEnd }
      else none) ∧
    (1 : ℚ) / 5 = (0.2 : ℚ) ∧
    layoutLabels ss = (layoutRects ss).filterMap (fun r =>
      if (1 : ℚ) / 5 ≤ r.yEnd - r.yStart then
        some { column := r.column, yMid := r.yStart + (r.yEnd - r.yStart) / 2, text := r.project }
      else none) := by
  refine ⟨?_, rfl, rfl, by norm_num, rfl⟩
  have hnodup : (dayKeys ss).Nodup := sortNat_nodup _ (List.nodup_dedup _)
  have hk : ∀ s ∈ ss, dayOf s.start ∈ dayKeys ss := fun s hs => dayKeys_mem ss s hs
  have haux := layout_perm_aux (dayKeys ss) 0 ss hnodup hk
  simpa [layoutRects, List.enum, rectOf] using haux

/-! ## Claim C9 — fatal timestamp errors and the zero-padding fix-up -/

/-- A single failing timestamp anywhere in the list makes the whole parse
pass fail: the event is not dropped and no substitute is produced. -/
theorem parseAll_error_mem : ∀ (l : List RawEvent) (e : RawEvent), e ∈ l →
    (∃ m, parse_event e.timestamp = .error m) → ∃ msg, parseAll l = .error msg
  | [], e, he, _ => absurd he (List.not_mem_nil e)
  | a :: rest, e, he, herr => by
      simp only [parseAll]
      cases hp : parse_event a.timestamp with
      | error msg => exact ⟨msg, rfl⟩
      | ok t =>
          rcases List.mem_cons.mp he with rfl | he
          · obtain ⟨m, hm⟩ := herr
            rw [hp] at hm
            exact absurd hm (by simp)
          · obtain ⟨msg, hmsg⟩ := parseAll_error_mem rest e he herr
            rw [hmsg]
            exact ⟨msg, rfl⟩

/-- C9: a timestamp unparseable even after the best-effort fix-up makes
`parse_event` propagate a fatal error (and any run whose log contains such
an event aborts — nothing is dropped, no substitute time is guessed),
while a timestamp whose single-digit hour becomes valid after prepending a
zero is parsed successfully to that exact time. -/
theorem c9_parse_event (ts : String) :
    ((pyFromIso ts = none ∧ ∀ ts2, fix_attempt ts = some ts2 → pyFromIso ts2 = none) →
      parse_event ts = .error ("Error parsing timestamp: " ++ ts) ∧
      (∀ (l : List RawEvent) (e : RawEvent), e ∈ l → e.timestamp = ts →
        ∃ msg, parseAll l = .error msg)) ∧
    (∀ (d t : List Char) (dt : Nat), splitOnT ts.data = [d, t] →
      pyFromIso ts = none → t[1]? = some ':' →
      pyFromIso (String.mk (d ++ 'T' :: '0' :: t)) = some dt →
      parse_event ts = .ok dt) := by
  constructor
  · rintro ⟨h1, h2⟩
    have herr : parse_event ts = .error ("Error parsing timestamp: " ++ ts) := by
      unfold parse_event
      rw [h1]
      cases hf : fix_attempt ts with
      | none => rfl
      | some ts2 => simp [h2 ts2 hf]
    refine ⟨herr, ?_⟩
    intro l e hl hts
    exact parseAll_error_mem l e hl ⟨_, by rw [hts, herr]⟩
  · intro d t dt hsplit hnone hcolon hfixed
    have hlen : 1 < t.length := by
      by_contra hle
      rw [List.getElem?_eq_none (by omega)] at hcolon
      exact Option.noConfusion hcolon
    have hget : t.get ⟨1, hlen⟩ = ':' := by
      have := List.getElem?_eq_getElem hlen
      rw [this] at hcolon
      simpa using hcolon
    have hne : ¬ t.length = 0 := by omega
    have hfix0 : fix_attempt ts =
        (if t.length = 0 then some (String.mk (d ++ 'T' :: t))
         else if ht : 1 < t.length then
           (if t.get ⟨1, ht⟩ = ':' then some (String.mk (d ++ 'T' :: '0' :: t))
            else some (String.mk (d ++ 'T' :: t)))
         else none) := by
      unfold fix_attempt
      rw [hsplit]
    have hfix : fix_attempt ts = some (String.mk (d ++ 'T' :: '0' :: t)) := by
      rw [hfix0, if_neg hne, dif_pos hlen, if_pos hget]
    unfold parse_event
    rw [hnone, hfix]
    simp [hfixed]

/-- Witness for `c9_parse_event`: `"garbage"` is fatally rejected (alone
and inside a log), while `"2024-01-01T9:30:00"` is repaired to
`"2024-01-01T09:30:00"` and parses to 2024-01-01 09:30:00. -/
theorem c9_parse_event_witness :
    (pyFromIso "garbage" = none ∧
      (∀ ts2, fix_attempt "garbage" = some ts2 → pyFromIso ts2 = none)) ∧
    (parse_event "garbage" = .error ("Error parsing timestamp: " ++ "garbage") ∧
      (∀ (l : List RawEvent) (e : RawEvent), e ∈ l → e.timestamp = "garbage" →
        ∃ msg, parseAll l = .error msg)) ∧
    splitOnT ("2024-01-01T9:30:00").data = ["2024-01-01".data, "9:30:00".data] ∧
    pyFromIso "2024-01-01T9:30:00" = none ∧
    ("9:30:00".data)[1]? = some ':' ∧
    pyFromIso (String.mk ("2024-01-01".data ++ 'T' :: '0' :: "9:30:00".data)) =
      some 63839784600 ∧
    parse_event "2024-01-01T9:30:00" = .ok 63839784600 := by
  have hgarb : fix_attempt "garbage" = none := by decide
  refine ⟨⟨by decide, ?_⟩, ?_, by decide, by decide, by decide, by decide, ?_⟩
  · intro ts2 h
    rw [hgarb] at h
    exact Option.noConfusion h
  · exact (c9_parse_event "garbage").1 ⟨by decide, fun ts2 h => by
      rw [hgarb] at h
      exact Option.noConfusion h⟩
  · exact (c9_parse_event "2024-01-01T9:30:00").2 ("2024-01-01").data ("9:30:00").data
      63839784600 (by decide) (by decide) (by decide) (by decide)

/-! ## Claim C3 — invariants after the midnight-splitting pass -/

/-- When the parsed timestamps are non-decreasing along the sorted log, each
pairwise session runs forward and ends by the midnight after its start. -/
theorem pairSessions_inv : ∀ pes : List PEvent, pes.Chain' (fun a b => a.t ≤ b.t) →
    ∀ s ∈ pairSessions pes, s.start ≤ s.stop ∧ s.stop ≤ day_end s.start
  | [], _, s, hs => by simp [pairSessions] at hs
  | [_], _, s, hs => by simp [pairSessions] at hs
  | a :: b :: rest, hmono, s, hs => by
      rw [List.chain'_cons] at hmono
      simp only [pairSessions, List.mem_cons] at hs
      rcases hs with rfl | hs
      · refine ⟨?_, ?_⟩
        · show a.t ≤ if dayOf a.t = dayOf b.t then b.t else day_end a.t
          by_cases hday : dayOf a.t = dayOf b.t
          · simpa [hday] using hmono.1
          · simp only [hday, if_false]
            exact Nat.le_of_lt (t_lt_day_end a.t)
        · show (if dayOf a.t = dayOf b.t then b.t else day_end a.t) ≤ day_end a.t
          by_cases hday : dayOf a.t = dayOf b.t
          · simp only [hday, if_true]
            exact Nat.le_of_lt (lt_day_end_of_dayOf_eq hday)
          · simp [hday]
      · exact pairSessions_inv (b :: rest) hmono.2 s hs

/-- The sessions handed to the splitting pass all run forward under the
monotonicity hypothesis (the synthesized final session always does). -/
theorem preSplit_start_le (pes : List PEvent) (hmono : pes.Chain' (fun a b => a.t ≤ b.t)) :
    ∀ s ∈ preSplitSessions pes, s.start ≤ s.stop := by
  intro s hs
  simp only [preSplitSessions] at hs
  cases hl : pes.getLast? with
  | none => rw [hl] at hs; simp at hs
  | some lastE =>
      rw [hl] at hs
      rcases List.mem_append.mp hs with hp | hf
      · exact (pairSessions_inv pes hmono s hp).1
      · have : s = mkFinalSession lastE := by simpa using hf
        subst this
        show lastE.t ≤ if strContains lastE.project END_OF_DAY then lastE.t else lastE.t + 3600
        by_cases hc : strContains lastE.project END_OF_DAY <;> simp [hc]

/-- Every output of the splitting pass runs forward and either stays within
one calendar date or ends exactly at the midnight after its start. -/
theorem splitPass_inv (ss : List Session) (hms : ∀ s ∈ ss, s.start ≤ s.stop) :
    ∀ u ∈ splitPass ss, u.start ≤ u.stop ∧
      (dayOf u.start = dayOf u.stop ∨ u.stop = day_end u.start) := by
  intro u hu
  simp only [splitPass, List.mem_flatMap] at hu
  obtain ⟨s, hs, hu⟩ := hu
  by_cases hday : dayOf s.start = dayOf s.stop
  · simp only [hday, if_true, List.mem_singleton] at hu
    subst hu
    exact ⟨hms _ hs, Or.inl hday⟩
  · simp only [hday, if_false] at hu
    obtain ⟨_, _, h3, h4⟩ := splitGo_mem (dayOf s.stop - dayOf s.start) s.start s.stop
      s.project s.color (Nat.le_refl _) u hu
    exact ⟨Nat.le_of_lt h3, h4.symm⟩

/-- A session strictly crossing a midnight splits into fragments starting
on (at least) two distinct days, all of which reach the day-grouped map. -/
theorem splitPass_cross (ss : List Session) (s : Session) (hs : s ∈ ss)
    (m : Nat) (hm : m % secPerDay = 0) (h1 : s.start < m) (h2 : m < s.stop) :
    ∃ f g, f ∈ split_session_by_day s.start s.stop s.project s.color ∧
      g ∈ split_session_by_day s.start s.stop s.project s.color ∧
      f ∈ splitPass ss ∧ g ∈ splitPass ss ∧
      f.start = s.start ∧ g.start = day_end s.start ∧
      dayOf f.start ≠ dayOf g.start := by
  have hde : day_end s.start ≤ m := by
    simp only [day_end, dayOf, secPerDay] at *
    omega
  have hlt2 : day_end s.start < s.stop := Nat.lt_of_le_of_lt hde h2
  have hcross : dayOf s.start < dayOf s.stop := by
    have h3 := hlt2
    simp only [day_end, dayOf, secPerDay] at *
    omega
  obtain ⟨fuel, hfuel⟩ : ∃ fuel, dayOf s.stop - dayOf s.start = fuel + 1 :=
    ⟨dayOf s.stop - dayOf s.start - 1, by omega⟩
  have hsplit : split_session_by_day s.start s.stop s.project s.color =
      ⟨s.start, day_end s.start, s.project, s.color⟩ ::
        splitGo fuel (day_end s.start) s.stop s.project s.color := by
    rw [split_session_by_day, hfuel]
    simp [splitGo, hcross]
  cases hrec : splitGo fuel (day_end s.start) s.stop s.project s.color with
  | nil => exact absurd hrec (splitGo_ne_nil fuel (day_end s.start) s.stop _ _ hlt2)
  | cons g0 gs =>
      have hg0 : g0.start = day_end s.start :=
        splitGo_cons_start fuel (day_end s.start) s.stop _ _ g0 gs hrec
      have hdne : dayOf s.start ≠ dayOf s.stop := Nat.ne_of_lt hcross
      have hmemPass : ∀ u, u ∈ split_session_by_day s.start s.stop s.project s.color →
          u ∈ splitPass ss := by
        intro u hu
        simp only [splitPass, List.mem_flatMap]
        exact ⟨s, hs, by simp [hdne, hu]⟩
      refine ⟨⟨s.start, day_end s.start, s.project, s.color⟩, g0, ?_, ?_, ?_, ?_, rfl, hg0, ?_⟩
      · rw [hsplit]; exact List.mem_cons_self _ _
      · rw [hsplit, hrec]; exact List.mem_cons_of_mem _ (List.mem_cons_self _ _)
      · exact hmemPass _ (by rw [hsplit]; exact List.mem_cons_self _ _)
      · exact hmemPass _ (by rw [hsplit, hrec]; exact List.mem_cons_of_mem _ (List.mem_cons_self _ _))
      · show dayOf s.start ≠ dayOf g0.start
        rw [hg0, dayOf_day_end]
        omega

/-- The sorted log of `c3raw` (sorted by the raw timestamp string) puts the
non-zero-padded `9:00` event after the `23:30` event, and the `9:00`
session is clipped to the following midnight. -/
def c3raw : List RawEvent :=
  [⟨"2024-01-01T10:00:00", some "A", some "#111111"⟩,
   ⟨"2024-01-01T9:00:00", some "B", some "#222222"⟩,
   ⟨"2024-01-01T23:30:00", some "C", some "#333333"⟩,
   ⟨"2024-01-02T00:15:00", some "END_OF_DAY", some "#ff6666"⟩]

def c3ss : List Session :=
  [⟨63839786400, 63839835000, "A", "#111111"⟩,
   ⟨63839835000, 63839782800, "C", "#333333"⟩,
   ⟨63839782800, 63839836800, "B", "#222222"⟩,
   ⟨63839837700, 63839837700, "END_OF_DAY", "#ff6666"⟩]

/-- C3 counterexample: after the midnight-splitting pass the log `c3raw`
yields a session with `end < start` (the code sorts by the raw timestamp
string, which misorders the non-zero-padded `9:00`), and a session ending
exactly at midnight, whose end date is the NEXT day, so
`start.date() == end.date()` fails as well. -/
theorem c3_counterexample :
    buildSplitSessions c3raw = .ok c3ss ∧
    (∃ s ∈ c3ss, s.stop < s.start) ∧
    (∃ s ∈ c3ss, dayOf s.start ≠ dayOf s.stop) := by
  decide

/-- C3 (amended): provided the string-sorted log is non-decreasing in
parsed timestamp (true for canonical zero-padded ISO timestamps), every
session after the splitting pass satisfies `end ≥ start`, either stays
within one calendar date or ends exactly at the midnight starting the
following day, and lies within its start day's `[00:00, 24:00]` bound; and
every pre-split session that strictly crosses a midnight appears as
sub-sessions starting on two distinct day keys of the day-grouped map. -/
theorem c3_split_invariants (raw : List RawEvent) (pes : List PEvent) (ss : List Session)
    (h : parsedEvents raw = .ok pes)
    (hmono : pes.Chain' (fun a b => a.t ≤ b.t))
    (hss : buildSplitSessions raw = .ok ss) :
    (∀ s ∈ ss, s.start ≤ s.stop ∧
      (dayOf s.start = dayOf s.stop ∨ s.stop = day_end s.start) ∧
      dayOf s.start * secPerDay ≤ s.start ∧ s.stop ≤ (dayOf s.start + 1) * secPerDay) ∧
    (∀ s ∈ preSplitSessions pes,
      (∃ m, m % secPerDay = 0 ∧ s.start < m ∧ m < s.stop) →
      ∃ f g, f ∈ ss ∧ g ∈ ss ∧ f.project = s.project ∧ g.project = s.project ∧
        f.start = s.start ∧ g.start = day_end s.start ∧
        dayOf f.start ≠ dayOf g.start ∧
        dayOf f.start ∈ dayKeys ss ∧ dayOf g.start ∈ dayKeys ss) := by
  have hssEq : ss = splitPass (preSplitSessions pes) := by
    simp only [buildSplitSessions, h, Except.map] at hss
    exact (Except.ok.injEq _ _).mp hss.symm ▸ by
      cases hss
      rfl
  subst hssEq
  have hms := preSplit_start_le pes hmono
  constructor
  · intro s hsmem
    obtain ⟨h1, h2⟩ := splitPass_inv (preSplitSessions pes) hms s hsmem
    refine ⟨h1, h2, Nat.div_mul_le_self s.start secPerDay, ?_⟩
    rcases h2 with hd | hd
    · exact Nat.le_of_lt (lt_day_end_of_dayOf_eq hd)
    · rw [hd]
      exact Nat.le_refl _
  · intro s hsmem hcross
    obtain ⟨m, hm, h1, h2⟩ := hcross
    obtain ⟨f, g, hf, hg, hfp, hgp, hfs, hgs, hne⟩ :=
      splitPass_cross (preSplitSessions pes) s hsmem m hm h1 h2
    obtain ⟨hfproj, hfcol, _, _⟩ := splitGo_mem (dayOf s.stop - dayOf s.start)
      s.start s.stop s.project s.color (Nat.le_refl _) f hf
    obtain ⟨hgproj, hgcol, _, _⟩ := splitGo_mem (dayOf s.stop - dayOf s.start)
      s.start s.stop s.project s.color (Nat.le_refl _) g hg
    exact ⟨f, g, hfp, hgp, hfproj, hgproj, hfs, hgs, hne,
      dayKeys_mem _ f hfp, dayKeys_mem _ g hgp⟩

def c3wraw : List RawEvent := [⟨"2024-01-01T23:30:00", some "A", none⟩]

def c3wpes : List PEvent := [⟨63839835000, "A", "#cccccc"⟩]

def c3wss : List Session :=
  [⟨63839835000, 63839836800, "A", "#cccccc"⟩,
   ⟨63839836800, 63839838600, "A", "#cccccc"⟩]

/-- Witness for `c3_split_invariants`: a single 23:30 event whose one-hour
final session strictly crosses midnight. -/
theorem c3_split_invariants_witness :
    parsedEvents c3wraw = .ok c3wpes ∧
    c3wpes.Chain' (fun a b => a.t ≤ b.t) ∧
    buildSplitSessions c3wraw = .ok c3wss ∧
    ((∀ s ∈ c3wss, s.start ≤ s.stop ∧
        (dayOf s.start = dayOf s.stop ∨ s.stop = day_end s.start) ∧
        dayOf s.start * secPerDay ≤ s.start ∧ s.stop ≤ (dayOf s.start + 1) * secPerDay) ∧
      (∀ s ∈ preSplitSessions c3wpes,
        (∃ m, m % secPerDay = 0 ∧ s.start < m ∧ m < s.stop) →
        ∃ f g, f ∈ c3wss ∧ g ∈ c3wss ∧ f.project = s.project ∧ g.project = s.project ∧
          f.start = s.start ∧ g.start = day_end s.start ∧
          dayOf f.start ≠ dayOf g.start ∧
          dayOf f.start ∈ dayKeys c3wss ∧ dayOf g.start ∈ dayKeys c3wss)) :=
  ⟨by decide, by simp [c3wpes], by decide,
    c3_split_invariants c3wraw c3wpes c3wss (by decide) (by simp [c3wpes]) (by decide)⟩

/-! ## Claim C5 — the midnight-splitting function tiles the interval -/

/-- C5: for a session interval with `start < stop` on different calendar
dates, `split_session_by_day` returns fragments that exactly tile the
interval: the first begins at `start`, the last ends at `stop`, each
fragment ends where the next begins at a midnight boundary, every fragment
carries the session's project and color, and none has zero duration. -/
theorem c5_split_tiling (start stop : Nat) (p c : String)
    (hlt : start < stop) (_hd : dayOf start ≠ dayOf stop) :
    (∃ f rest, split_session_by_day start stop p c = f :: rest ∧ f.start = start) ∧
    (∃ fl, (split_session_by_day start stop p c).getLast? = some fl ∧ fl.stop = stop) ∧
    (split_session_by_day start stop p c).Chain'
      (fun f g => f.stop = g.start ∧ f.stop % secPerDay = 0) ∧
    (∀ f ∈ split_session_by_day start stop p c,
      f.project = p ∧ f.color = c ∧ f.start < f.stop) := by
  refine ⟨?_, ?_, ?_, ?_⟩
  · cases hsp : split_session_by_day start stop p c with
    | nil =>
        exact absurd hsp (splitGo_ne_nil (dayOf stop - dayOf start) start stop p c hlt)
    | cons f rest =>
        exact ⟨f, rest,
          rfl, splitGo_cons_start (dayOf stop - dayOf start) start stop p c f rest hsp⟩
  · exact splitGo_last (dayOf stop - dayOf start) start stop p c (Nat.le_refl _) hlt
  · exact splitGo_chain (dayOf stop - dayOf start) start stop p c
  · intro f hf
    obtain ⟨h1, h2, h3, _⟩ :=
      splitGo_mem (dayOf stop - dayOf start) start stop p c (Nat.le_refl _) f hf
    exact ⟨h1, h2, h3⟩

/-- Witness for `c5_split_tiling`: the interval 2024-01-01 23:30 →
2024-01-02 00:15. -/
theorem c5_split_tiling_witness :
    63839835000 < 63839837700 ∧ dayOf 63839835000 ≠ dayOf 63839837700 ∧
    ((∃ f rest, split_session_by_day 63839835000 63839837700 "A" "#111111" = f :: rest ∧
        f.start = 63839835000) ∧
      (∃ fl, (split_session_by_day 63839835000 63839837700 "A" "#111111").getLast? = some fl ∧
        fl.stop = 63839837700) ∧
      (split_session_by_day 63839835000 63839837700 "A" "#111111").Chain'
        (fun f g => f.stop = g.start ∧ f.stop % secPerDay = 0) ∧
      (∀ f ∈ split_session_by_day 63839835000 63839837700 "A" "#111111",
        f.project = "A" ∧ f.color = "#111111" ∧ f.start < f.stop)) :=
  ⟨by decide, by decide,
    c5_split_tiling 63839835000 63839837700 "A" "#111111" (by decide) (by decide)⟩

end Switchboard

